import Mathlib

/-!
# Verification of the voice-agent calendar service

Shallow embedding of the two source files of the repository:

* `calendar_api/calendar_backend.py` — the availability calculator
  `find_free_slots` (its pure core, lines 99–122: sorting the busy
  intervals by start, sweeping a cursor through them and greedily
  emitting fixed-duration free slots);
* `calendar_api/main.py` — the permissive truncating timestamp parser
  `parse_as_local` used by the booking endpoint.

Instants are modelled as integers (minutes from an arbitrary origin, all
in the single process-wide local zone): the algorithm only compares
instants and adds `duration_minutes`-sized steps, so any discretisation
at or below the granularity of the inputs is faithful.  A busy interval
or a free slot is a pair `(start, end) : Int × Int`.

The network boundary (`get_events_for_range`, the Google client) is an
external collaborator; the busy list it would return is a parameter of
the embedded `find_free_slots`, exactly as in the spec's
`computeFreeSlots(workWindow, busyIntervals, durationMinutes)`.
-/

namespace VoiceAgent

/-- One unrolling of the source's inner `while` loop
`while slot_start + timedelta(minutes=duration_minutes) <= bound:` which
appends `{start: slot_start, end: slot_start + duration}` and advances
`slot_start` by the duration.  The Python loop has no fuel: it simply
runs while the condition holds, and consequently never terminates when
`duration_minutes ≤ 0` and the condition is satisfiable.  The `Nat` fuel
makes the model total; `emitSlots` below supplies fuel sufficient for
every terminating (`0 < d`) run of the source loop. -/
def emitSlotsAux : Nat → Int → Int → Int → List (Int × Int)
  | 0, _, _, _ => []
  | n + 1, slot_start, bound, d =>
    if slot_start + d ≤ bound then
      (slot_start, slot_start + d) :: emitSlotsAux n (slot_start + d) bound d
    else []

/-- The source's slot-emission loop from `slot_start` up to `bound`:
fuel `(bound - slot_start).toNat + 1` is enough for any positive
duration, since every iteration moves `slot_start` at least one minute
towards `bound`. -/
def emitSlots (slot_start bound d : Int) : List (Int × Int) :=
  emitSlotsAux ((bound - slot_start).toNat + 1) slot_start bound d

/-- The sort key of `busy.sort(key=lambda x: x[0])`: compare busy
intervals by their start instant. -/
def busyLE (a b : Int × Int) : Prop := a.1 ≤ b.1

instance : DecidableRel busyLE := fun a b => inferInstanceAs (Decidable (a.1 ≤ b.1))

instance : IsTotal (Int × Int) busyLE := ⟨fun a b => le_total a.1 b.1⟩

instance : IsTrans (Int × Int) busyLE := ⟨fun _ _ _ => le_trans⟩

/-- The body of the source's `for b_start, b_end in busy:` loop acting on
the state `(free_slots, cursor)`:

```python
if b_start > cursor:
    slot_start = cursor
    while slot_start + timedelta(minutes=duration_minutes) <= b_start: ...
cursor = max(cursor, b_end)
``` -/
def processBusy (d : Int) (st : List (Int × Int) × Int) (b : Int × Int) :
    List (Int × Int) × Int :=
  (if b.1 > st.2 then st.1 ++ emitSlots st.2 b.1 d else st.1, max st.2 b.2)

/-- Pure core of `find_free_slots` (calendar_backend.py lines 99–122):
sort the busy intervals by start (Python's `list.sort` is a stable sort
by the key, modelled by the stable `List.insertionSort` on `busyLE`),
sweep the cursor through them emitting slots into gaps, then emit slots
from the final cursor up to `day_end`.  `day_start`/`day_end` are the
work-window bounds the source derives from the date and the work hours;
`busy` is the interval list the gateway fetched. -/
def find_free_slots (day_start day_end : Int) (busy : List (Int × Int))
    (duration_minutes : Int) : List (Int × Int) :=
  let sorted := busy.insertionSort busyLE
  let st := sorted.foldl (processBusy duration_minutes) ([], day_start)
  st.1 ++ emitSlots st.2 day_end duration_minutes

/-- Every slot the emission loop produces has the exact requested
duration, starts no earlier than the loop's starting point, and ends no
later than the loop's bound. -/
lemma mem_emitSlotsAux {d : Int} (hd : 0 < d) :
    ∀ (n : Nat) (start bound : Int) (s : Int × Int),
      s ∈ emitSlotsAux n start bound d →
      s.2 = s.1 + d ∧ start ≤ s.1 ∧ s.2 ≤ bound := by
  intro n
  induction n with
  | zero => intro start bound s hs; simp [emitSlotsAux] at hs
  | succ n ih =>
    intro start bound s hs
    by_cases hc : start + d ≤ bound
    · rw [emitSlotsAux, if_pos hc] at hs
      rcases List.mem_cons.mp hs with h | h
      · subst h; exact ⟨rfl, le_refl _, hc⟩
      · obtain ⟨h1, h2, h3⟩ := ih (start + d) bound s h
        exact ⟨h1, by linarith, h3⟩
    · rw [emitSlotsAux, if_neg hc] at hs
      simp at hs

lemma mem_emitSlots {d : Int} (hd : 0 < d) {start bound : Int} {s : Int × Int}
    (hs : s ∈ emitSlots start bound d) :
    s.2 = s.1 + d ∧ start ≤ s.1 ∧ s.2 ≤ bound :=
  mem_emitSlotsAux hd _ start bound s hs

/-- If the loop condition fails at entry, nothing is emitted. -/
lemma emitSlotsAux_eq_nil {n : Nat} {start bound d : Int}
    (h : ¬ start + d ≤ bound) : emitSlotsAux n start bound d = [] := by
  cases n <;> simp [emitSlotsAux, h]

/-- Consecutive emitted slots abut: for a positive duration, each slot
starts strictly after the previous one and at or after its end. -/
lemma chain_emitSlotsAux {d : Int} (hd : 0 < d) :
    ∀ (n : Nat) (start bound : Int),
      List.Chain' (fun a b : Int × Int => a.1 < b.1 ∧ a.2 ≤ b.1)
        (emitSlotsAux n start bound d) := by
  intro n
  induction n with
  | zero => intro start bound; simp [emitSlotsAux]
  | succ n ih =>
    intro start bound
    by_cases hc : start + d ≤ bound
    · rw [emitSlotsAux, if_pos hc]
      refine List.chain'_cons'.mpr ⟨?_, ih (start + d) bound⟩
      intro y hy
      obtain ⟨_, h2, _⟩ :=
        mem_emitSlotsAux hd n (start + d) bound y (List.mem_of_mem_head? hy)
      exact ⟨lt_of_lt_of_le (by linarith) h2, h2⟩
    · rw [emitSlotsAux, if_neg hc]; simp

/-- With enough fuel and a positive duration, emitting from `start` up to
`start + k * d` produces exactly the `k` consecutive slots tiling that
range. -/
lemma emitSlotsAux_tiling {d : Int} (hd : 0 < d) :
    ∀ (k : Nat) (n : Nat) (start : Int), ((k : Int) * d).toNat < n →
      emitSlotsAux n start (start + (k : Int) * d) d =
        (List.range k).map
          (fun i : Nat => (start + (i : Int) * d, start + ((i : Int) + 1) * d)) := by
  intro k
  induction k with
  | zero =>
    intro n start _
    rw [show start + ((0 : Nat) : Int) * d = start by push_cast; ring,
      emitSlotsAux_eq_nil (show ¬ start + d ≤ start by linarith)]
    simp
  | succ k ih =>
    intro n start hn
    have hkd : (0 : Int) ≤ (k : Int) * d := mul_nonneg (Int.natCast_nonneg k) hd.le
    obtain ⟨m, rfl⟩ : ∃ m, n = m + 1 := ⟨n - 1, by omega⟩
    have hbound : start + (((k : Nat) + 1 : Nat) : Int) * d =
        (start + d) + (k : Int) * d := by push_cast; ring
    have hfuel : ((k : Int) * d).toNat < m := by
      have h1 : ((((k : Nat) + 1 : Nat) : Int) * d).toNat < m + 1 := hn
      rw [show ((((k : Nat) + 1 : Nat) : Int)) * d = (k : Int) * d + d by push_cast; ring]
        at h1
      omega
    rw [emitSlotsAux, hbound, if_pos (by linarith : start + d ≤ (start + d) + (k : Int) * d),
      ih m (start + d) hfuel, List.range_succ_eq_map, List.map_cons, List.map_map]
    refine congrArg₂ _ (by norm_num) ?_
    refine List.map_congr_left ?_
    intro i _
    simp only [Function.comp_apply, Prod.mk.injEq]
    push_cast
    constructor <;> ring

/-- A returned-slot list is chronological: starts strictly increase and
each slot ends at or before the next begins (so consecutive slots never
overlap). -/
def chronological (l : List (Int × Int)) : Prop :=
  List.Chain' (fun a b : Int × Int => a.1 < b.1 ∧ a.2 ≤ b.1) l

/-- Sweep invariants of the `for b_start, b_end in busy:` loop, for a
positive duration and a busy list sorted by start: the cursor never
decreases, ends up at or above every processed busy end, and every slot
in the final accumulator either was already there or (i) starts at or
after the initial cursor, (ii) has exact duration `d`, (iii) ends at or
before the start of some processed busy interval, and (iv) avoids every
processed busy interval (it ends before the interval starts or starts
after the interval ends). -/
lemma foldl_processBusy_master {d : Int} (hd : 0 < d) :
    ∀ (bs : List (Int × Int)) (l : List (Int × Int)) (c : Int),
      List.Pairwise busyLE bs →
      c ≤ (bs.foldl (processBusy d) (l, c)).2 ∧
      (∀ b ∈ bs, b.2 ≤ (bs.foldl (processBusy d) (l, c)).2) ∧
      (∀ s ∈ (bs.foldl (processBusy d) (l, c)).1,
        s ∈ l ∨ (c ≤ s.1 ∧ s.2 = s.1 + d ∧ (∃ b ∈ bs, s.2 ≤ b.1) ∧
          (∀ b ∈ bs, s.2 ≤ b.1 ∨ b.2 ≤ s.1))) := by
  intro bs
  induction bs with
  | nil =>
    intro l c _
    exact ⟨le_refl c, by simp, fun s hs => Or.inl hs⟩
  | cons b₀ rest ih =>
    intro l c hp
    obtain ⟨hb₀, hp'⟩ := List.pairwise_cons.mp hp
    rw [List.foldl_cons]
    have hstep : processBusy d (l, c) b₀ =
        (if b₀.1 > c then l ++ emitSlots c b₀.1 d else l, max c b₀.2) := rfl
    rw [hstep]
    obtain ⟨ih1, ih2, ih3⟩ :=
      ih (if b₀.1 > c then l ++ emitSlots c b₀.1 d else l) (max c b₀.2) hp'
    refine ⟨le_trans (le_max_left c b₀.2) ih1, ?_, ?_⟩
    · intro b hb
      rcases List.mem_cons.mp hb with h | h
      · subst h; exact le_trans (le_max_right c b.2) ih1
      · exact ih2 b h
    · intro s hs
      rcases ih3 s hs with hsl | ⟨hc₁, hshape, ⟨b, hbmem, hble⟩, hall⟩
      · by_cases hgap : b₀.1 > c
        · rw [if_pos hgap] at hsl
          rcases List.mem_append.mp hsl with h | h
          · exact Or.inl h
          · obtain ⟨h1, h2, h3⟩ := mem_emitSlots hd h
            refine Or.inr ⟨h2, h1, ⟨b₀, List.mem_cons_self b₀ rest, h3⟩, ?_⟩
            intro b' hb'
            rcases List.mem_cons.mp hb' with h' | h'
            · subst h'; exact Or.inl h3
            · exact Or.inl (le_trans h3 (hb₀ b' h'))
        · rw [if_neg hgap] at hsl
          exact Or.inl hsl
      · refine Or.inr ⟨le_trans (le_max_left c b₀.2) hc₁, hshape,
          ⟨b, List.mem_cons_of_mem b₀ hbmem, hble⟩, ?_⟩
        intro b' hb'
        rcases List.mem_cons.mp hb' with h' | h'
        · subst h'; exact Or.inr (le_trans (le_max_right c b'.2) hc₁)
        · exact hall b' h'

/-- Sweep invariants for chronological order: for well-formed busy
intervals (start ≤ end) sorted by start, the accumulator stays a
chronological list of exact-duration slots all ending at or before the
cursor. -/
lemma foldl_processBusy_chain {d : Int} (hd : 0 < d) :
    ∀ (bs : List (Int × Int)) (l : List (Int × Int)) (c : Int),
      List.Pairwise busyLE bs → (∀ b ∈ bs, b.1 ≤ b.2) →
      (∀ s ∈ l, s.2 = s.1 + d) → chronological l → (∀ s ∈ l, s.2 ≤ c) →
      (∀ s ∈ (bs.foldl (processBusy d) (l, c)).1, s.2 = s.1 + d) ∧
      chronological (bs.foldl (processBusy d) (l, c)).1 ∧
      (∀ s ∈ (bs.foldl (processBusy d) (l, c)).1,
        s.2 ≤ (bs.foldl (processBusy d) (l, c)).2) := by
  intro bs
  induction bs with
  | nil =>
    intro l c _ _ hshape hchain hcur
    exact ⟨hshape, hchain, hcur⟩
  | cons b₀ rest ih =>
    intro l c hp hwf hshape hchain hcur
    obtain ⟨hb₀, hp'⟩ := List.pairwise_cons.mp hp
    rw [List.foldl_cons]
    have hstep : processBusy d (l, c) b₀ =
        (if b₀.1 > c then l ++ emitSlots c b₀.1 d else l, max c b₀.2) := rfl
    rw [hstep]
    have hwf₀ : b₀.1 ≤ b₀.2 := hwf b₀ (List.mem_cons_self b₀ rest)
    have hshape₁ : ∀ s ∈ (if b₀.1 > c then l ++ emitSlots c b₀.1 d else l),
        s.2 = s.1 + d := by
      intro s hs
      by_cases hgap : b₀.1 > c
      · rw [if_pos hgap] at hs
        rcases List.mem_append.mp hs with h | h
        · exact hshape s h
        · exact (mem_emitSlots hd h).1
      · rw [if_neg hgap] at hs
        exact hshape s hs
    have hchain₁ : chronological (if b₀.1 > c then l ++ emitSlots c b₀.1 d else l) := by
      by_cases hgap : b₀.1 > c
      · rw [if_pos hgap]
        refine List.Chain'.append hchain (chain_emitSlotsAux hd _ c b₀.1) ?_
        intro x hx y hy
        have hxl : x ∈ l := List.mem_of_mem_getLast? hx
        have hyn : c ≤ y.1 :=
          (mem_emitSlotsAux hd _ c b₀.1 y (List.mem_of_mem_head? hy)).2.1
        have hx2 : x.2 ≤ c := hcur x hxl
        have hxs : x.2 = x.1 + d := hshape x hxl
        exact ⟨by linarith, by linarith⟩
      · rw [if_neg hgap]
        exact hchain
    have hcur₁ : ∀ s ∈ (if b₀.1 > c then l ++ emitSlots c b₀.1 d else l),
        s.2 ≤ max c b₀.2 := by
      intro s hs
      by_cases hgap : b₀.1 > c
      · rw [if_pos hgap] at hs
        rcases List.mem_append.mp hs with h | h
        · exact le_trans (hcur s h) (le_max_left c b₀.2)
        · exact le_trans (le_trans (mem_emitSlots hd h).2.2 hwf₀) (le_max_right c b₀.2)
      · rw [if_neg hgap] at hs
        exact le_trans (hcur s hs) (le_max_left c b₀.2)
    exact ih _ _ hp' (fun b hb => hwf b (List.mem_cons_of_mem b₀ hb))
      hshape₁ hchain₁ hcur₁

/-- C1: no returned slot overlaps any busy interval, for every work
window, busy list and positive duration; and in the spec's merging
example (busy 9:00–10:00 and 9:30–11:00 inside a 9:00–17:00 window,
duration 30, times in minutes) every returned slot starts at or after
11:00, i.e. overlapping busy intervals behave as if merged by the
running maximum of the cursor. -/
theorem find_free_slots_no_overlap :
    (∀ (day_start day_end : Int) (busy : List (Int × Int)) (d : Int), 0 < d →
      ∀ s ∈ find_free_slots day_start day_end busy d, ∀ b ∈ busy,
        ¬(s.1 < b.2 ∧ b.1 < s.2)) ∧
    (∀ s ∈ find_free_slots 540 1020 [(540, 600), (570, 660)] 30, (660 : Int) ≤ s.1) := by
  constructor
  · intro ds de busy d hd s hs b hb
    simp only [find_free_slots] at hs
    have hsort : List.Pairwise busyLE (busy.insertionSort busyLE) :=
      List.sorted_insertionSort busyLE busy
    obtain ⟨hm1, hm2, hm3⟩ :=
      foldl_processBusy_master hd (busy.insertionSort busyLE) [] ds hsort
    have hbs : b ∈ busy.insertionSort busyLE := (List.mem_insertionSort busyLE).mpr hb
    rintro ⟨hov1, hov2⟩
    rcases List.mem_append.mp hs with h | h
    · rcases hm3 s h with h0 | ⟨_, _, _, hall⟩
      · simp at h0
      · rcases hall b hbs with hle | hle <;> linarith
    · have h1 := (mem_emitSlots hd h).2.1
      have h2 := hm2 b hbs
      linarith
  · decide

/-- Witness for C1 at the window 0–100, busy `[(10, 20)]`, duration 10:
the returned slot `(20, 30)` does not overlap the busy interval. -/
theorem find_free_slots_no_overlap_witness :
    ¬(((20 : Int), (30 : Int)).1 < ((10 : Int), (20 : Int)).2 ∧
      ((10 : Int), (20 : Int)).1 < ((20 : Int), (30 : Int)).2) :=
  find_free_slots_no_overlap.1 0 100 [(10, 20)] 10 (by decide)
    (20, 30) (by decide) (10, 20) (by decide)

/-- C2: every returned slot has end minus start exactly equal to the
requested duration; no shorter partial slot is ever emitted. -/
theorem find_free_slots_slot_length :
    ∀ (day_start day_end : Int) (busy : List (Int × Int)) (d : Int), 0 < d →
      ∀ s ∈ find_free_slots day_start day_end busy d, s.2 - s.1 = d := by
  intro ds de busy d hd s hs
  simp only [find_free_slots] at hs
  have hsort : List.Pairwise busyLE (busy.insertionSort busyLE) :=
    List.sorted_insertionSort busyLE busy
  obtain ⟨_, _, hm3⟩ :=
    foldl_processBusy_master hd (busy.insertionSort busyLE) [] ds hsort
  rcases List.mem_append.mp hs with h | h
  · rcases hm3 s h with h0 | ⟨_, hshape, _, _⟩
    · simp at h0
    · linarith
  · have := (mem_emitSlots hd h).1
    linarith

/-- Witness for C2: in the window 0–100 with no busy events and duration
30, the returned slot `(0, 30)` has length exactly 30. -/
theorem find_free_slots_slot_length_witness :
    ((0 : Int), (30 : Int)).2 - ((0 : Int), (30 : Int)).1 = 30 :=
  find_free_slots_slot_length 0 100 [] 30 (by decide) (0, 30) (by decide)

/-- C3: with an empty busy list and a window whose length is an exact
positive multiple `k` of the duration, the result is exactly the `k`
consecutive slots tiling the window; concretely, the 9:00–17:00 window
(540–1020 minutes) with duration 30 yields 16 slots starting at 09:00
and ending at 17:00. -/
theorem find_free_slots_empty_busy_tiles :
    (∀ (day_start day_end d : Int) (k : Nat), 0 < d → 0 < k →
      day_end - day_start = (k : Int) * d →
      find_free_slots day_start day_end [] d =
        (List.range k).map
          (fun i : Nat => (day_start + (i : Int) * d, day_start + ((i : Int) + 1) * d))) ∧
    ((find_free_slots 540 1020 [] 30).length = 16 ∧
      (find_free_slots 540 1020 [] 30).head? = some (540, 570) ∧
      (find_free_slots 540 1020 [] 30).getLast? = some (990, 1020)) := by
  constructor
  · intro ds de d k hd _ hwin
    have hde : de = ds + (k : Int) * d := by linarith
    subst hde
    simp only [find_free_slots, List.insertionSort, List.foldl_nil, List.nil_append]
    rw [emitSlots, show ds + (k : Int) * d - ds = (k : Int) * d by ring]
    exact emitSlotsAux_tiling hd k _ ds (Nat.lt_succ_self _)
  · refine ⟨by decide, by decide, by decide⟩

/-- Witness for C3: the window 0–60 with duration 30 and no busy events
returns exactly the two slots tiling it. -/
theorem find_free_slots_empty_busy_tiles_witness :
    find_free_slots 0 60 [] 30 = [((0 : Int), (30 : Int)), (30, 60)] :=
  (find_free_slots_empty_busy_tiles.1 0 60 30 2 (by decide) (by decide)
    (by decide)).trans (by decide)

/-- C4 (amended): provided every busy interval starts no later than the
window's end — which is what the gateway guarantees, since it only
fetches events starting before `timeMax = day_end` — every returned slot
lies inside the work window. -/
theorem find_free_slots_within_window :
    ∀ (day_start day_end : Int) (busy : List (Int × Int)) (d : Int), 0 < d →
      (∀ b ∈ busy, b.1 ≤ day_end) →
      ∀ s ∈ find_free_slots day_start day_end busy d,
        day_start ≤ s.1 ∧ s.2 ≤ day_end := by
  intro ds de busy d hd hbusy s hs
  simp only [find_free_slots] at hs
  have hsort : List.Pairwise busyLE (busy.insertionSort busyLE) :=
    List.sorted_insertionSort busyLE busy
  obtain ⟨hm1, _, hm3⟩ :=
    foldl_processBusy_master hd (busy.insertionSort busyLE) [] ds hsort
  rcases List.mem_append.mp hs with h | h
  · rcases hm3 s h with h0 | ⟨hc, _, ⟨b, hbmem, hble⟩, _⟩
    · simp at h0
    · exact ⟨hc, le_trans hble (hbusy b ((List.mem_insertionSort busyLE).mp hbmem))⟩
  · obtain ⟨_, h1, h2⟩ := mem_emitSlots hd h
    exact ⟨le_trans hm1 h1, h2⟩

/-- Witness for C4 (amended) at the window 0–100, busy `[(10, 20)]`,
duration 10, slot `(0, 10)`. -/
theorem find_free_slots_within_window_witness :
    (0 : Int) ≤ ((0 : Int), (10 : Int)).1 ∧ ((0 : Int), (10 : Int)).2 ≤ 100 :=
  find_free_slots_within_window 0 100 [(10, 20)] 10 (by decide) (by decide)
    (0, 10) (by decide)

/-- Counterexample to C4 as stated: with the window 0–10, duration 10
and a (well-formed) busy interval `(20, 30)` lying beyond the window,
the code returns the slot `(10, 20)`, whose end exceeds the window end
10 — the gap-filling loop runs up to the busy start without clipping at
`day_end`. -/
theorem find_free_slots_window_violation :
    ((10 : Int), (20 : Int)) ∈ find_free_slots 0 10 [(20, 30)] 10 ∧
      ¬(((10 : Int), (20 : Int)).2 ≤ 10) := by decide

/-- C5 (amended): provided every busy interval starts no later than the
window's end (the gateway's guarantee), a degenerate window
(`day_start ≥ day_end`) yields no slots. -/
theorem find_free_slots_degenerate_window :
    ∀ (day_start day_end : Int) (busy : List (Int × Int)) (d : Int), 0 < d →
      (∀ b ∈ busy, b.1 ≤ day_end) → day_end ≤ day_start →
      find_free_slots day_start day_end busy d = [] := by
  intro ds de busy d hd hbusy hwin
  simp only [find_free_slots]
  have hsort : List.Pairwise busyLE (busy.insertionSort busyLE) :=
    List.sorted_insertionSort busyLE busy
  obtain ⟨hm1, _, hm3⟩ :=
    foldl_processBusy_master hd (busy.insertionSort busyLE) [] ds hsort
  have h1 : ((busy.insertionSort busyLE).foldl (processBusy d) ([], ds)).1 = [] := by
    rw [List.eq_nil_iff_forall_not_mem]
    intro s hs
    rcases hm3 s hs with h0 | ⟨hc, hshape, ⟨b, hbmem, hble⟩, _⟩
    · simp at h0
    · have : b.1 ≤ de := hbusy b ((List.mem_insertionSort busyLE).mp hbmem)
      linarith
  have h2 : emitSlots ((busy.insertionSort busyLE).foldl (processBusy d) ([], ds)).2
      de d = [] :=
    emitSlotsAux_eq_nil (by intro hcon; linarith)
  rw [h1, h2]
  rfl

/-- Witness for C5 (amended): window 10–0 (start after end), busy
`[(0, 0)]`, duration 5, returns the empty list. -/
theorem find_free_slots_degenerate_window_witness :
    find_free_slots 10 0 [((0 : Int), (0 : Int))] 5 = [] :=
  find_free_slots_degenerate_window 10 0 [(0, 0)] 5 (by decide) (by decide) (by decide)

/-- Counterexample to C5 as stated: with `day_start = 10 ≥ 0 = day_end`
but a busy interval starting at 20 (beyond the window), the code still
emits slots into the gap before the busy start, so the result is not
empty. -/
theorem find_free_slots_degenerate_window_violation :
    find_free_slots 10 0 [(20, 30)] 5 ≠ [] := by decide

/-- C6: the code performs no validation of `duration_minutes` at all and
raises no error for a non-positive duration.  With duration 0 on the
default 9:00–17:00 window (540–1020 minutes), the source's final `while`
loop never terminates: every finite unrolling of the loop keeps the
condition true and appends yet another degenerate slot `(540, 540)`, so
no slot list (and no `ValidationError`) is ever produced. -/
theorem find_free_slots_zero_duration_no_validation :
    ∀ n : Nat, emitSlotsAux n 540 1020 0 = List.replicate n (540, 540) := by
  intro n
  induction n with
  | zero => rfl
  | succ n ih =>
    rw [emitSlotsAux, if_pos (by decide : (540 : Int) + 0 ≤ 1020),
      show (540 : Int) + 0 = 540 by ring, ih, List.replicate_succ]

/-- C7: for every window, every list of well-formed busy intervals
(start ≤ end, the data-model invariant of an Interval) and every
positive duration, the returned list is chronological: slot starts
strictly increase and consecutive slots do not overlap. -/
theorem find_free_slots_chronological :
    ∀ (day_start day_end : Int) (busy : List (Int × Int)) (d : Int), 0 < d →
      (∀ b ∈ busy, b.1 ≤ b.2) →
      chronological (find_free_slots day_start day_end busy d) := by
  intro ds de busy d hd hwf
  simp only [find_free_slots]
  have hsort : List.Pairwise busyLE (busy.insertionSort busyLE) :=
    List.sorted_insertionSort busyLE busy
  have hwf' : ∀ b ∈ busy.insertionSort busyLE, b.1 ≤ b.2 :=
    fun b hb => hwf b ((List.mem_insertionSort busyLE).mp hb)
  obtain ⟨hsh, hch, hcu⟩ :=
    foldl_processBusy_chain hd (busy.insertionSort busyLE) [] ds hsort hwf'
      (by simp) (by simp [chronological]) (by simp)
  refine List.Chain'.append hch (chain_emitSlotsAux hd _ _ de) ?_
  intro x hx y hy
  have hxl := List.mem_of_mem_getLast? hx
  have hx2 := hcu x hxl
  have hxs := hsh x hxl
  have hy1 := (mem_emitSlotsAux hd _ _ de y (List.mem_of_mem_head? hy)).2.1
  exact ⟨by linarith, by linarith⟩

/-- Witness for C7 at the window 0–100, busy `[(10, 20)]`, duration 10. -/
theorem find_free_slots_chronological_witness :
    chronological (find_free_slots 0 100 [((10 : Int), (20 : Int))] 10) :=
  find_free_slots_chronological 0 100 [(10, 20)] 10 (by decide) (by decide)

/-!
## The booking-request timestamp parser (`main.py`, `parse_as_local`)

`parse_as_local` strips one trailing `'Z'`, truncates to the first 19
characters, runs `datetime.strptime(dt_str, "%Y-%m-%dT%H:%M:%S")` and
attaches the process-wide local zone.  The zone is a process constant,
so the parsed instant is fully described by its wall-clock fields. -/

/-- A wall-clock instant in the process-wide local zone (the `datetime`
the parser returns; microseconds are always 0 here because the format
has no `%f`). -/
structure LocalDT where
  year : Nat
  month : Nat
  day : Nat
  hour : Nat
  minute : Nat
  second : Nat
deriving DecidableEq, Repr

/-- Longest leading run of ASCII digits of a character list, and the
remainder.  This is how a `\d`-built `strptime` field group splits its
input: each numeric field consumes a maximal digit run, because the
character after it in the format is a non-digit literal. -/
def takeDigits : List Char → List Char × List Char
  | [] => ([], [])
  | c :: cs =>
    if c.isDigit then (c :: (takeDigits cs).1, (takeDigits cs).2)
    else ([], c :: cs)

/-- Decimal value of a digit run (how `strptime` turns a matched field
group into an `int`). -/
def digitsVal (ds : List Char) : Nat :=
  ds.foldl (fun n c => 10 * n + (c.toNat - 48)) 0

/-- Consume one numeric `strptime` field: a maximal digit run whose
width lies in `[lo, hi]`.  `%Y` matches exactly four digits
(`lo = hi = 4`); `%m`, `%d`, `%H`, `%M`, `%S` match one or two digits
(the leading zero is optional in CPython's `strptime`). -/
def readRun (lo hi : Nat) (cs : List Char) : Option (List Char × List Char) :=
  if lo ≤ (takeDigits cs).1.length ∧ (takeDigits cs).1.length ≤ hi then
    some (takeDigits cs)
  else none

/-- Consume one literal separator character of the format string (`-`
and `:` have no case, so `IGNORECASE` does not affect them). -/
def expectSep (sep : Char) : List Char → Option (List Char)
  | [] => none
  | c :: cs => if c = sep then some cs else none

/-- Consume the format's literal `T`.  CPython compiles the `strptime`
format regex with `re.IGNORECASE`, so the literal `T` also matches a
lowercase `t` (no other character case-folds to `t`). -/
def expectT : List Char → Option (List Char)
  | [] => none
  | c :: cs => if c = 'T' ∨ c = 't' then some cs else none

/-- `strptime` fails when unconverted data remains: the whole input must
be consumed. -/
def expectEnd : List Char → Option Unit
  | [] => some ()
  | _ :: _ => none

/-- Gregorian leap-year rule used by Python's `datetime`. -/
def isLeapYear (y : Nat) : Bool :=
  decide (y % 4 = 0) && (!decide (y % 100 = 0) || decide (y % 400 = 0))

/-- Length of a month as validated by the `datetime` constructor. -/
def daysInMonth (y m : Nat) : Nat :=
  if m = 2 then (if isLeapYear y then 29 else 28)
  else if m = 4 ∨ m = 6 ∨ m = 9 ∨ m = 11 then 30
  else 31

/-- The `datetime` constructor's range validation (`MINYEAR = 1`,
`MAXYEAR = 9999`, month 1–12, day within the month, hour ≤ 23,
minute ≤ 59, second ≤ 59).  The per-field ranges of the `strptime`
regexes (month ≤ 12, day ≤ 31, hour ≤ 23, minute ≤ 59, second ≤ 61) are
all subsumed by these checks. -/
def validDT (dt : LocalDT) : Bool :=
  decide (1 ≤ dt.year) && decide (dt.year ≤ 9999) && decide (1 ≤ dt.month) &&
  decide (dt.month ≤ 12) && decide (1 ≤ dt.day) &&
  decide (dt.day ≤ daysInMonth dt.year dt.month) && decide (dt.hour ≤ 23) &&
  decide (dt.minute ≤ 59) && decide (dt.second ≤ 59)

/-- `datetime.strptime(cs, "%Y-%m-%dT%H:%M:%S")`: four year digits, then
the literal separators `-`, `-`, `T` (or `t`, since the format regex is
compiled with `IGNORECASE`), `:`, `:` between one-or-two-digit month,
day, hour, minute and second fields, consuming the entire string,
followed by the constructor's validation.

Scope of the model: digits are ASCII digits.  CPython's `\d` (and
`int()`) additionally accept non-ASCII Unicode decimal digits inside
some field positions, so this model is character-exact on ASCII inputs;
statements characterising acceptance carry an explicit ASCII hypothesis,
and the round-trip statements quantify over parser outputs (always
constructor-validated datetimes) rather than over input strings. -/
def strptime19 (cs : List Char) : Option LocalDT := do
  let (yds, r1) ← readRun 4 4 cs
  let r2 ← expectSep '-' r1
  let (mds, r3) ← readRun 1 2 r2
  let r4 ← expectSep '-' r3
  let (dds, r5) ← readRun 1 2 r4
  let r6 ← expectT r5
  let (hds, r7) ← readRun 1 2 r6
  let r8 ← expectSep ':' r7
  let (mids, r9) ← readRun 1 2 r8
  let r10 ← expectSep ':' r9
  let (sds, r11) ← readRun 1 2 r10
  let _ ← expectEnd r11
  let dt : LocalDT := ⟨digitsVal yds, digitsVal mds, digitsVal dds,
    digitsVal hds, digitsVal mids, digitsVal sds⟩
  if validDT dt then some dt else none

/-- The cleaning steps of `parse_as_local`:

```python
if dt_str.endswith("Z"):
    dt_str = dt_str[:-1]
if len(dt_str) > 19:
    dt_str = dt_str[:19]
``` -/
def cleanChars (cs : List Char) : List Char :=
  let cs1 := if cs.getLast? = some 'Z' then cs.dropLast else cs
  if cs1.length > 19 then cs1.take 19 else cs1

/-- `parse_as_local` from `main.py`: clean (strip a trailing `Z`,
truncate to 19 characters), parse as a wall-clock instant, attach the
local zone (implicit in `LocalDT`).  `none` models the raised
`ValueError`/ParseError. -/
def parse_as_local (s : String) : Option LocalDT :=
  strptime19 (cleanChars s.data)

example : parse_as_local "2025-11-14T16:30:00Z" = some ⟨2025, 11, 14, 16, 30, 0⟩ := by
  decide

example : parse_as_local "2025-11-14T16:30:00-08:00" = some ⟨2025, 11, 14, 16, 30, 0⟩ := by
  decide

example : parse_as_local "2025-1-2T03:04:05" = some ⟨2025, 1, 2, 3, 4, 5⟩ := by decide

example : parse_as_local "2025-11-14t16:30:00" = some ⟨2025, 11, 14, 16, 30, 0⟩ := by
  decide

example : parse_as_local "2025-02-30T10:00:00" = none := by decide

example : parse_as_local "garbage" = none := by decide

/-- The spec's literal wall-clock pattern `YYYY-MM-DDTHH:MM:SS`: exactly
19 characters with digits in the fixed positions and the literal
separators `-`, `-`, `T`, `:`, `:` between two-digit fields.  This is
the pattern named by the claim; it is a spec-side recogniser, to be
compared with the parser's actual acceptance. -/
def wallClockPattern (cs : List Char) : Bool :=
  match cs with
  | [y1, y2, y3, y4, c1, m1, m2, c2, d1, d2, c3, h1, h2, c4, i1, i2, c5, s1, s2] =>
    y1.isDigit && y2.isDigit && y3.isDigit && y4.isDigit && decide (c1 = '-') &&
    m1.isDigit && m2.isDigit && decide (c2 = '-') && d1.isDigit && d2.isDigit &&
    decide (c3 = 'T') && h1.isDigit && h2.isDigit && decide (c4 = ':') &&
    i1.isDigit && i2.isDigit && decide (c5 = ':') && s1.isDigit && s2.isDigit
  | _ => false

/-- An all-digit run whose width lies in `[lo, hi]`. -/
def digitRun (lo hi : Nat) (ds : List Char) : Prop :=
  lo ≤ ds.length ∧ ds.length ≤ hi ∧ ∀ c ∈ ds, c.isDigit = true

/-- The corrected (lenient) acceptance pattern of the source's
`strptime`-based parser: `Y-M-DTH:M:S` with a four-digit year, each
other field one or two digits wide, a `T` or `t` date-time separator
(the format regex is case-insensitive), and field values forming a valid
calendar date-time.  A spec-side recogniser, independent of the parser's
control flow, against which the parser is characterised. -/
def lenientPattern (cs : List Char) : Prop :=
  ∃ (yds mds dds hds mids sds : List Char) (ct : Char),
    cs = yds ++ '-' :: (mds ++ '-' :: (dds ++ ct ::
      (hds ++ ':' :: (mids ++ ':' :: sds)))) ∧
    (ct = 'T' ∨ ct = 't') ∧
    digitRun 4 4 yds ∧ digitRun 1 2 mds ∧ digitRun 1 2 dds ∧ digitRun 1 2 hds ∧
    digitRun 1 2 mids ∧ digitRun 1 2 sds ∧
    validDT ⟨digitsVal yds, digitsVal mds, digitsVal dds, digitsVal hds,
      digitsVal mids, digitsVal sds⟩ = true

/-- The ASCII digit character for `n ≤ 9`. -/
def digitChar (n : Nat) : Char := Char.ofNat (48 + n)

/-- Two-digit zero-padded rendering (`%02d`, for values ≤ 99). -/
def pad2 (n : Nat) : List Char := [digitChar (n / 10), digitChar (n % 10)]

/-- Four-digit zero-padded rendering (`%04d`, for values ≤ 9999). -/
def pad4 (n : Nat) : List Char :=
  [digitChar (n / 1000), digitChar (n / 100 % 10), digitChar (n / 10 % 10),
   digitChar (n % 10)]

/-- The wall-clock part of Python's `datetime.isoformat()` for a
zone-aware datetime with zero microseconds:
`YYYY-MM-DDTHH:MM:SS` zero-padded. -/
def isoformatChars (dt : LocalDT) : List Char :=
  pad4 dt.year ++ '-' :: (pad2 dt.month ++ '-' :: (pad2 dt.day ++ 'T' ::
    (pad2 dt.hour ++ ':' :: (pad2 dt.minute ++ ':' :: pad2 dt.second))))

/-- `datetime.isoformat()` of a local-zone datetime: the wall-clock part
followed by the zone's UTC-offset suffix (`-08:00` or `-07:00` for
America/Los_Angeles depending on daylight saving).  The suffix is a
parameter of the model, so every statement below holds for whichever
offset the zone database produces. -/
def isoformat (dt : LocalDT) (offsetSuffix : String) : String :=
  String.mk (isoformatChars dt ++ offsetSuffix.data)

/-- `takeDigits` splits its input into its value: the input is the run
followed by the rest, the run is all digits, and the rest does not start
with a digit. -/
lemma takeDigits_spec : ∀ cs : List Char,
    cs = (takeDigits cs).1 ++ (takeDigits cs).2 ∧
    (∀ c ∈ (takeDigits cs).1, c.isDigit = true) ∧
    (∀ c ∈ (takeDigits cs).2.head?, c.isDigit = false) := by
  intro cs
  induction cs with
  | nil => exact ⟨rfl, by simp [takeDigits], by simp [takeDigits]⟩
  | cons c cs ih =>
    by_cases hc : c.isDigit
    · simp only [takeDigits, if_pos hc]
      refine ⟨?_, ?_, ih.2.2⟩
      · rw [List.cons_append]
        exact congrArg (List.cons c) ih.1
      · intro x hx
        rcases List.mem_cons.mp hx with h | h
        · subst h; exact hc
        · exact ih.2.1 x h
    · simp only [takeDigits, if_neg hc]
      refine ⟨rfl, by simp, ?_⟩
      intro x hx
      simp only [List.head?_cons, Option.mem_def, Option.some.injEq] at hx
      subst hx
      exact Bool.not_eq_true _ ▸ hc

/-- Conversely, `takeDigits` recovers an all-digit run prepended to a
rest that does not start with a digit. -/
lemma takeDigits_append : ∀ (ds r : List Char), (∀ c ∈ ds, c.isDigit = true) →
    (∀ c ∈ r.head?, c.isDigit = false) → takeDigits (ds ++ r) = (ds, r) := by
  intro ds
  induction ds with
  | nil =>
    intro r _ hr
    cases r with
    | nil => rfl
    | cons c cs =>
      have hc : c.isDigit = false := hr c (by simp)
      simp [takeDigits, hc]
  | cons c ds ih =>
    intro r hds hr
    have hc : c.isDigit = true := hds c (by simp)
    have hrec := ih r (fun x hx => hds x (List.mem_cons_of_mem c hx)) hr
    simp [takeDigits, hc, hrec]

/-- Inversion of a successful `readRun`. -/
lemma readRun_eq_some {lo hi : Nat} {cs ds r : List Char}
    (h : readRun lo hi cs = some (ds, r)) :
    cs = ds ++ r ∧ digitRun lo hi ds ∧ (∀ c ∈ r.head?, c.isDigit = false) := by
  by_cases hcond : lo ≤ (takeDigits cs).1.length ∧ (takeDigits cs).1.length ≤ hi
  · rw [readRun, if_pos hcond, Option.some.injEq] at h
    obtain ⟨hspec1, hspec2, hspec3⟩ := takeDigits_spec cs
    rw [h] at hspec1 hspec2 hspec3 hcond
    exact ⟨hspec1, ⟨hcond.1, hcond.2, hspec2⟩, hspec3⟩
  · rw [readRun, if_neg hcond] at h
    exact absurd h (by simp)

/-- Evaluation of `readRun` on a rendered run. -/
lemma readRun_append {lo hi : Nat} {ds r : List Char} (hds : digitRun lo hi ds)
    (hr : ∀ c ∈ r.head?, c.isDigit = false) :
    readRun lo hi (ds ++ r) = some (ds, r) := by
  obtain ⟨h1, h2, h3⟩ := hds
  rw [readRun, takeDigits_append ds r h3 hr,
    if_pos (show lo ≤ (ds, r).1.length ∧ (ds, r).1.length ≤ hi from ⟨h1, h2⟩)]

/-- Inversion of a successful `expectSep`. -/
lemma expectSep_eq_some {sep : Char} {cs r : List Char}
    (h : expectSep sep cs = some r) : cs = sep :: r := by
  cases cs with
  | nil => simp [expectSep] at h
  | cons c cs' =>
    by_cases hc : c = sep
    · subst hc
      rw [expectSep, if_pos rfl, Option.some.injEq] at h
      rw [h]
    · rw [expectSep, if_neg hc] at h
      exact absurd h (by simp)

/-- Inversion of a successful `expectT`. -/
lemma expectT_eq_some {cs r : List Char} (h : expectT cs = some r) :
    ∃ c, (c = 'T' ∨ c = 't') ∧ cs = c :: r := by
  cases cs with
  | nil => simp [expectT] at h
  | cons c cs' =>
    by_cases hc : c = 'T' ∨ c = 't'
    · rw [expectT, if_pos hc, Option.some.injEq] at h
      exact ⟨c, hc, by rw [h]⟩
    · rw [expectT, if_neg hc] at h
      exact absurd h (by simp)

/-- `expectT` succeeds on `T` and on `t`. -/
lemma expectT_cons {c : Char} (hc : c = 'T' ∨ c = 't') (r : List Char) :
    expectT (c :: r) = some r := by
  rw [expectT, if_pos hc]

/-- Inversion of a successful `expectEnd`. -/
lemma expectEnd_eq_some {cs : List Char} {u : Unit}
    (h : expectEnd cs = some u) : cs = [] := by
  cases cs with
  | nil => rfl
  | cons c cs' => simp [expectEnd] at h

/-- A list starting with a non-digit character does not start with a
digit. -/
lemma head_not_digit {c : Char} (hc : c.isDigit = false) (r : List Char) :
    ∀ x ∈ (c :: r).head?, x.isDigit = false := by
  intro x hx
  simp only [List.head?_cons, Option.mem_def, Option.some.injEq] at hx
  subst hx
  exact hc

/-- An `Option` bind succeeds exactly when its first step succeeds and
its continuation succeeds on the produced value. -/
lemma optBind_inv {α β : Type} {o : Option α} {f : α → Option β} {b : β}
    (h : (do let a ← o; f a) = some b) : ∃ a, o = some a ∧ f a = some b := by
  cases o with
  | none => exact absurd h (by simp)
  | some a => exact ⟨a, rfl, by simpa using h⟩

/-- Reduction of a bind whose first step is already a `some`. -/
lemma optBind_some {α β : Type} (a : α) (f : α → Option β) :
    (do let x ← some a; f x) = f a := rfl

/-- `expectSep` succeeds on its own separator. -/
lemma expectSep_cons (sep : Char) (r : List Char) :
    expectSep sep (sep :: r) = some r := by
  rw [expectSep, if_pos rfl]

/-- `readRun` on a bare digit run consumes all of it. -/
lemma readRun_all {lo hi : Nat} {ds : List Char} (hds : digitRun lo hi ds) :
    readRun lo hi ds = some (ds, []) := by
  have h := readRun_append (r := []) hds (by simp)
  rwa [List.append_nil] at h

/-- Forward characterisation of the parser: a successful `strptime19`
run exhibits the input as a lenient-pattern rendering, and the returned
datetime passed the constructor's validation. -/
lemma strptime19_eq_some {cs : List Char} {dt : LocalDT}
    (h : strptime19 cs = some dt) : lenientPattern cs ∧ validDT dt = true := by
  rw [strptime19] at h
  obtain ⟨⟨yds, r1⟩, h1, h⟩ := optBind_inv h
  try dsimp only at h
  obtain ⟨r2, h2, h⟩ := optBind_inv h
  try dsimp only at h
  obtain ⟨⟨mds, r3⟩, h3, h⟩ := optBind_inv h
  try dsimp only at h
  obtain ⟨r4, h4, h⟩ := optBind_inv h
  try dsimp only at h
  obtain ⟨⟨dds, r5⟩, h5, h⟩ := optBind_inv h
  try dsimp only at h
  obtain ⟨r6, h6, h⟩ := optBind_inv h
  try dsimp only at h
  obtain ⟨⟨hds, r7⟩, h7, h⟩ := optBind_inv h
  try dsimp only at h
  obtain ⟨r8, h8, h⟩ := optBind_inv h
  try dsimp only at h
  obtain ⟨⟨mids, r9⟩, h9, h⟩ := optBind_inv h
  try dsimp only at h
  obtain ⟨r10, h10, h⟩ := optBind_inv h
  try dsimp only at h
  obtain ⟨⟨sds, r11⟩, h11, h⟩ := optBind_inv h
  try dsimp only at h
  obtain ⟨u, h12, h⟩ := optBind_inv h
  try dsimp only at h
  obtain ⟨hcs1, hy, _⟩ := readRun_eq_some h1
  have he1 := expectSep_eq_some h2
  obtain ⟨hcs2, hm, _⟩ := readRun_eq_some h3
  have he2 := expectSep_eq_some h4
  obtain ⟨hcs3, hdd, _⟩ := readRun_eq_some h5
  obtain ⟨ct, hct, he3⟩ := expectT_eq_some h6
  obtain ⟨hcs4, hhh, _⟩ := readRun_eq_some h7
  have he4 := expectSep_eq_some h8
  obtain ⟨hcs5, hmi, _⟩ := readRun_eq_some h9
  have he5 := expectSep_eq_some h10
  obtain ⟨hcs6, hsd, _⟩ := readRun_eq_some h11
  have he6 := expectEnd_eq_some h12
  by_cases hval : validDT ⟨digitsVal yds, digitsVal mds, digitsVal dds,
      digitsVal hds, digitsVal mids, digitsVal sds⟩ = true
  · rw [if_pos hval, Option.some.injEq] at h
    subst h
    refine ⟨⟨yds, mds, dds, hds, mids, sds, ct, ?_, hct, hy, hm, hdd, hhh, hmi, hsd,
      hval⟩, hval⟩
    subst hcs1 he1 hcs2 he2 hcs3 he3 hcs4 he4 hcs5 he5 hcs6 he6
    simp
  · rw [if_neg hval] at h
    exact absurd h (by simp)

/-- Backward evaluation of the parser: on a lenient-pattern rendering
(with either date-time separator case) it succeeds and returns the
decimal values of the six runs. -/
lemma strptime19_of_runs {yds mds dds hds mids sds : List Char} {ct : Char}
    (hct : ct = 'T' ∨ ct = 't')
    (hy : digitRun 4 4 yds) (hm : digitRun 1 2 mds) (hdd : digitRun 1 2 dds)
    (hhh : digitRun 1 2 hds) (hmi : digitRun 1 2 mids) (hsd : digitRun 1 2 sds)
    (hv : validDT ⟨digitsVal yds, digitsVal mds, digitsVal dds, digitsVal hds,
      digitsVal mids, digitsVal sds⟩ = true) :
    strptime19 (yds ++ '-' :: (mds ++ '-' :: (dds ++ ct ::
      (hds ++ ':' :: (mids ++ ':' :: sds))))) =
      some ⟨digitsVal yds, digitsVal mds, digitsVal dds, digitsVal hds,
        digitsVal mids, digitsVal sds⟩ := by
  have hctd : ct.isDigit = false := by rcases hct with rfl | rfl <;> decide
  rw [strptime19, readRun_append hy (head_not_digit (by decide) _), optBind_some]
  try dsimp only
  rw [expectSep_cons, optBind_some]
  rw [readRun_append hm (head_not_digit (by decide) _), optBind_some]
  try dsimp only
  rw [expectSep_cons, optBind_some]
  rw [readRun_append hdd (head_not_digit hctd _), optBind_some]
  try dsimp only
  rw [expectT_cons hct, optBind_some]
  rw [readRun_append hhh (head_not_digit (by decide) _), optBind_some]
  try dsimp only
  rw [expectSep_cons, optBind_some]
  rw [readRun_append hmi (head_not_digit (by decide) _), optBind_some]
  try dsimp only
  rw [expectSep_cons, optBind_some]
  rw [readRun_all hsd, optBind_some]
  try dsimp only
  rw [show expectEnd [] = some () from rfl, optBind_some]
  try dsimp only
  rw [if_pos hv]

lemma digitChar_isDigit : ∀ k < 10, (digitChar k).isDigit = true := by decide

lemma digitChar_toNat : ∀ k < 10, (digitChar k).toNat = 48 + k := by decide

lemma digitChar_ne_Z : ∀ k < 10, digitChar k ≠ 'Z' := by decide

/-- `%02d` renders a one-or-two-digit run. -/
lemma digitRun_pad2 {n : Nat} (h : n ≤ 99) : digitRun 1 2 (pad2 n) := by
  refine ⟨by simp [pad2], by simp [pad2], ?_⟩
  intro c hc
  simp only [pad2, List.mem_cons, List.not_mem_nil, or_false] at hc
  rcases hc with rfl | rfl
  · exact digitChar_isDigit _ (by omega)
  · exact digitChar_isDigit _ (by omega)

/-- `%04d` renders a four-digit run. -/
lemma digitRun_pad4 {n : Nat} (h : n ≤ 9999) : digitRun 4 4 (pad4 n) := by
  refine ⟨by simp [pad4], by simp [pad4], ?_⟩
  intro c hc
  simp only [pad4, List.mem_cons, List.not_mem_nil, or_false] at hc
  rcases hc with rfl | rfl | rfl | rfl
  · exact digitChar_isDigit _ (by omega)
  · exact digitChar_isDigit _ (by omega)
  · exact digitChar_isDigit _ (by omega)
  · exact digitChar_isDigit _ (by omega)

lemma digitsVal_pad2 {n : Nat} (h : n ≤ 99) : digitsVal (pad2 n) = n := by
  have e1 := digitChar_toNat (n / 10) (by omega)
  have e2 := digitChar_toNat (n % 10) (by omega)
  simp only [digitsVal, pad2, List.foldl_cons, List.foldl_nil, e1, e2]
  omega

lemma digitsVal_pad4 {n : Nat} (h : n ≤ 9999) : digitsVal (pad4 n) = n := by
  have e1 := digitChar_toNat (n / 1000) (by omega)
  have e2 := digitChar_toNat (n / 100 % 10) (by omega)
  have e3 := digitChar_toNat (n / 10 % 10) (by omega)
  have e4 := digitChar_toNat (n % 10) (by omega)
  simp only [digitsVal, pad4, List.foldl_cons, List.foldl_nil, e1, e2, e3, e4]
  omega

lemma daysInMonth_le (y m : Nat) : daysInMonth y m ≤ 31 := by
  unfold daysInMonth
  split
  · split <;> decide
  · split <;> decide

/-- Bounds on the fields of a validated datetime (weak bounds, enough to
know each field fits its zero-padded rendering). -/
lemma validDT_fields {dt : LocalDT} (hv : validDT dt = true) :
    1 ≤ dt.year ∧ dt.year ≤ 9999 ∧ dt.month ≤ 99 ∧ dt.day ≤ 99 ∧
    dt.hour ≤ 99 ∧ dt.minute ≤ 99 ∧ dt.second ≤ 99 := by
  have hd31 := daysInMonth_le dt.year dt.month
  simp only [validDT, Bool.and_eq_true, decide_eq_true_eq] at hv
  omega

lemma isoformatChars_length (dt : LocalDT) : (isoformatChars dt).length = 19 := by
  simp [isoformatChars, pad4, pad2]

lemma isoformatChars_getLast (dt : LocalDT) :
    (isoformatChars dt).getLast? = some (digitChar (dt.second % 10)) := by
  simp only [isoformatChars, pad4, pad2, List.cons_append, List.nil_append,
    List.getLast?_cons_cons, List.getLast?_singleton]

/-- The cleaning step is the identity on a 19-character rendering
followed by any offset suffix: a nonempty suffix is truncated away
entirely (even after a `Z`-strip), and an empty suffix leaves the
19-character string untouched. -/
lemma cleanChars_isoformat {dt : LocalDT} (hv : validDT dt = true) :
    ∀ off : List Char, cleanChars (isoformatChars dt ++ off) = isoformatChars dt := by
  intro off
  have hlen := isoformatChars_length dt
  have hlast : (isoformatChars dt).getLast? ≠ some 'Z' := by
    rw [isoformatChars_getLast]
    intro hcon
    rw [Option.some.injEq] at hcon
    have hsec : dt.second ≤ 99 := (validDT_fields hv).2.2.2.2.2.2
    exact digitChar_ne_Z (dt.second % 10) (by omega) hcon
  cases off with
  | nil =>
    rw [List.append_nil]
    simp only [cleanChars]
    rw [if_neg hlast, if_neg (by rw [hlen]; omega)]
  | cons c t =>
    simp only [cleanChars]
    have hne : (c :: t) ≠ ([] : List Char) := by simp
    rw [List.getLast?_append_of_ne_nil _ hne]
    by_cases hz : (c :: t).getLast? = some 'Z'
    · rw [if_pos hz, List.dropLast_append_of_ne_nil _ hne]
      cases hdrop : (c :: t).dropLast with
      | nil =>
        rw [List.append_nil, if_neg (by rw [hlen]; omega)]
      | cons c' t' =>
        rw [if_pos (by simp [List.length_append, hlen])]
        rw [show (19 : Nat) = (isoformatChars dt).length from hlen.symm, List.take_left]
    · rw [if_neg hz, if_pos (by simp [List.length_append, hlen])]
      rw [show (19 : Nat) = (isoformatChars dt).length from hlen.symm, List.take_left]

/-- Parsing an `isoformat` rendering of a validated datetime recovers
exactly that datetime, whatever the zone-offset suffix is: the suffix is
truncated away before parsing. -/
lemma parse_isoformat_eq {dt : LocalDT} (hv : validDT dt = true) (off : String) :
    parse_as_local (isoformat dt off) = some dt := by
  obtain ⟨_, hy2, hm99, hd99, hh99, hmi99, hs99⟩ := validDT_fields hv
  have hv' : validDT ⟨digitsVal (pad4 dt.year), digitsVal (pad2 dt.month),
      digitsVal (pad2 dt.day), digitsVal (pad2 dt.hour), digitsVal (pad2 dt.minute),
      digitsVal (pad2 dt.second)⟩ = true := by
    rw [digitsVal_pad4 hy2, digitsVal_pad2 hm99, digitsVal_pad2 hd99,
      digitsVal_pad2 hh99, digitsVal_pad2 hmi99, digitsVal_pad2 hs99]
    exact hv
  rw [parse_as_local, isoformat,
    show (String.mk (isoformatChars dt ++ off.data)).data =
      isoformatChars dt ++ off.data from rfl,
    cleanChars_isoformat hv off.data, isoformatChars,
    strptime19_of_runs (Or.inl rfl) (digitRun_pad4 hy2) (digitRun_pad2 hm99)
      (digitRun_pad2 hd99) (digitRun_pad2 hh99) (digitRun_pad2 hmi99)
      (digitRun_pad2 hs99) hv',
    digitsVal_pad4 hy2, digitsVal_pad2 hm99, digitsVal_pad2 hd99,
    digitsVal_pad2 hh99, digitsVal_pad2 hmi99, digitsVal_pad2 hs99]

/-- C8: the booking parser discards any zone or offset suffix instead of
converting it: a trailing `Z` and a `-08:00` offset are both thrown away
by the strip-then-truncate cleaning, so both inputs produce the same
local wall-clock instant 2025-11-14T16:30:00. -/
theorem parse_as_local_discards_offset :
    parse_as_local "2025-11-14T16:30:00Z" = some ⟨2025, 11, 14, 16, 30, 0⟩ ∧
    parse_as_local "2025-11-14T16:30:00-08:00" = some ⟨2025, 11, 14, 16, 30, 0⟩ ∧
    parse_as_local "2025-11-14T16:30:00Z" = parse_as_local "2025-11-14T16:30:00-08:00" := by
  refine ⟨by decide, by decide, by decide⟩

/-- Counterexample to C9 as stated: the parser's acceptance is not the
fixed-width pattern `YYYY-MM-DDTHH:MM:SS`.  `"2025-1-2T03:04:05"` does
not match the pattern (one-digit month and day) yet parses successfully,
because `strptime`'s numeric fields accept a missing leading zero; and
`"2025-02-30T10:00:00"` matches the character pattern yet fails to
parse, because February has no 30th day (the `datetime` constructor
validates the calendar). -/
theorem parse_as_local_pattern_violation :
    (parse_as_local "2025-1-2T03:04:05").isSome = true ∧
    wallClockPattern (cleanChars ("2025-1-2T03:04:05").data) = false ∧
    parse_as_local "2025-02-30T10:00:00" = none ∧
    wallClockPattern (cleanChars ("2025-02-30T10:00:00").data) = true := by
  refine ⟨by decide, by decide, by decide, by decide⟩

/-- C9 (amended): for an input made of ASCII characters — the scope on
which this model of `strptime` is character-exact, since CPython's `\d`
additionally accepts non-ASCII Unicode decimal digits — `parse_as_local`
fails exactly when the cleaned input (one trailing `Z` stripped, then
truncated to 19 characters) is not of the lenient form `Y-M-DTH:M:S`:
four-digit year, the other five fields one or two digits wide each, a
`T` or `t` separator (the format regex is compiled case-insensitively),
and values forming a valid calendar date-time. -/
theorem parse_as_local_failure_iff :
    ∀ s : String, (∀ c ∈ s.data, c.toNat ≤ 127) →
      (parse_as_local s = none ↔ ¬ lenientPattern (cleanChars s.data)) := by
  intro s _
  constructor
  · intro h hp
    obtain ⟨yds, mds, dds, hds, mids, sds, ct, hcs, hct, hy, hm, hdd, hhh, hmi, hsd,
      hv⟩ := hp
    have he := strptime19_of_runs hct hy hm hdd hhh hmi hsd hv
    rw [parse_as_local, hcs, he] at h
    exact Option.some_ne_none _ h
  · intro hp
    cases heq : parse_as_local s with
    | none => rfl
    | some dt =>
      rw [parse_as_local] at heq
      exact absurd (strptime19_eq_some heq).1 hp

/-- Witness for C9 (amended) at the all-ASCII input
`"2025-11-14t16:30:00"`, which uses the lowercase separator the
case-insensitive format accepts. -/
theorem parse_as_local_failure_iff_witness :
    parse_as_local "2025-11-14t16:30:00" = none ↔
      ¬ lenientPattern (cleanChars ("2025-11-14t16:30:00").data) :=
  parse_as_local_failure_iff "2025-11-14t16:30:00" (by decide)

/-- C10: `parse_as_local` is idempotent under ISO re-serialisation.
Every instant the source parser can return is a Python `datetime`, and
every `datetime` satisfies the constructor invariant modelled by
`validDT` (the parser builds its result through the validating
constructor).  The first conjunct therefore quantifies over a superset
of all reachable parse results — covering every input string the source
accepts, including ones outside this model's character-level scope, such
as inputs with non-ASCII Unicode digits or a lowercase `t` — and over
every zone-offset suffix `isoformat` may attach: re-serialising and
re-parsing returns the same instant, because the rendering is canonical
19-character ASCII and the suffix is truncated away.  The second
conjunct states the claim's literal round-trip shape,
`parse_as_local (parse_as_local s |>.isoformat) = parse_as_local s`. -/
theorem parse_as_local_isoformat_roundtrip :
    (∀ (dt : LocalDT) (off : String), validDT dt = true →
      parse_as_local (isoformat dt off) = some dt) ∧
    (∀ (s : String) (dt : LocalDT) (off : String),
      parse_as_local s = some dt →
      parse_as_local (isoformat dt off) = parse_as_local s) := by
  constructor
  · intro dt off hv
    exact parse_isoformat_eq hv off
  · intro s dt off h
    have hv : validDT dt = true :=
      (strptime19_eq_some (show strptime19 (cleanChars s.data) = some dt from h)).2
    rw [h]
    exact parse_isoformat_eq hv off

/-- Witness for C10 on the spec's example instant with the PST
offset. -/
theorem parse_as_local_isoformat_roundtrip_witness :
    parse_as_local (isoformat ⟨2025, 11, 14, 16, 30, 0⟩ "-08:00") =
      some ⟨2025, 11, 14, 16, 30, 0⟩ :=
  parse_as_local_isoformat_roundtrip.1 ⟨2025, 11, 14, 16, 30, 0⟩ "-08:00" (by decide)

end VoiceAgent
